import Mathlib

/-!
Verification of the pihole-autoblocker core engine: a shallow embedding of
the heuristic classifier, the scoring function, the CNAME resolution cache,
and the quarantine promotion/eviction step from `pihole_autoblocker.py`,
together with theorems settling the specification's testable properties.

Conventions: Python floats are modelled as rationals, Python ints as
integers, dicts keyed by domain as association lists (Python dicts keep
insertion order and have unique keys), and the external collaborators
(DNS lookups via dig, the gravity database, the `pihole` CLI) as function
parameters returning their observable results.  Python string primitives
(`lower`, `strip`, `endswith`, `in`, `split`) are re-implemented over
`List Char` so that every definition evaluates inside the kernel.
-/

namespace Autoblocker

/-! ## String utilities

`hasPre p l` decides whether `p` is an initial segment of `l`;
`hasSub n l` decides whether `n` occurs contiguously inside `l`
(mirroring Python's `in` on strings); `endsW` mirrors `str.endswith`,
`startsW` mirrors `str.startswith`. -/

def hasPre : List Char → List Char → Bool
  | [], _ => true
  | _ :: _, [] => false
  | a :: as, b :: bs => a == b && hasPre as bs

def hasSub (needle : List Char) : List Char → Bool
  | [] => needle.isEmpty
  | c :: rest => hasPre needle (c :: rest) || hasSub needle rest

def strIn (needle hay : String) : Bool :=
  hasSub needle.data hay.data

def endsW (s suf : String) : Bool :=
  hasPre suf.data.reverse s.data.reverse

def startsW (p s : String) : Bool :=
  hasPre p.data s.data

/-- ASCII lowercasing of one character, as `str.lower` acts on domain names. -/
def charLower (c : Char) : Char :=
  if 65 ≤ c.toNat ∧ c.toNat ≤ 90 then Char.ofNat (c.toNat + 32) else c

/-- Python `s.lower()`. -/
def lowerS (s : String) : String :=
  String.mk (s.data.map charLower)

/-- Python `s.rstrip('.')`. -/
def rstripDot (s : String) : String :=
  String.mk ((s.data.reverse.dropWhile (fun c => c == '.')).reverse)

/-- Python `s.strip('.')`. -/
def stripDots (s : String) : String :=
  String.mk (((s.data.dropWhile (fun c => c == '.')).reverse.dropWhile (fun c => c == '.')).reverse)

def isWS (c : Char) : Bool :=
  c == ' ' || c == '\t' || c == '\n' || c == '\r'

/-- Python `s.strip()` (whitespace at both ends). -/
def trimS (s : String) : String :=
  String.mk (((s.data.dropWhile isWS).reverse.dropWhile isWS).reverse)

/-- Python `s.split('.')` (empty string gives `[""]`, like Python). -/
def splitDot : List Char → List (List Char)
  | [] => [[]]
  | c :: rest =>
    let r := splitDot rest
    if c == '.' then [] :: r
    else
      match r with
      | [] => [[c]]
      | h :: t => (c :: h) :: t

/-- Lexicographic order on char lists by code point, used to model Python `sorted`. -/
def lexLe : List Char → List Char → Bool
  | [], _ => true
  | _ :: _, [] => false
  | a :: as, b :: bs =>
    if a.toNat < b.toNat then true
    else if b.toNat < a.toNat then false
    else lexLe as bs

def insSorted (x : String) : List String → List String
  | [] => [x]
  | y :: ys => if lexLe x.data y.data then x :: y :: ys else y :: insSorted x ys

/-- Ascending insertion sort on strings, modelling Python `sorted`. -/
def sortStrings : List String → List String
  | [] => []
  | x :: xs => insSorted x (sortStrings xs)

/-- Python `",".join(sorted(set(rlist)))`. -/
def joinSorted (rlist : List String) : String :=
  String.intercalate "," (sortStrings rlist.dedup)

/-! ## Configuration

Fields and default values mirror the `CFG.get(key, default)` calls in the
source. -/

structure Cfg where
  allowlist : List String := []
  suspicious_substrings : List String := []
  suspicious_tlds : List String := []
  score_hits_k : ℚ := 20
  score_uniq_k : ℚ := 3
  score_hours_k : ℚ := 6
  cname_cache_ttl_hours : ℤ := 24
  promotion_min_score : ℚ := 0.90
  quarantine_hours : ℤ := 12
  lookback_hours : ℤ := 24
  dry_run : Bool := false

def defaultCfg : Cfg := {}

/-! ## `domain_suffix_in_list` -/

/-- The per-entry normalization `(s or "").lower().strip().lstrip('*')`. -/
def cleanSuffix (s : String) : String :=
  String.mk ((trimS (lowerS s)).data.dropWhile (fun c => c == '*'))

/-- Embedding of `domain_suffix_in_list`: the domain is lowercased and
stripped of trailing dots; each entry is normalized by `cleanSuffix`; empty
entries are skipped; a match is exact equality, a dotted suffix
(`d.endswith("." + s)`), or a bare suffix (`d.endswith(s)`). -/
def domain_suffix_in_list (domain : String) (suffixes : List String) : Bool :=
  let d := rstripDot (lowerS domain)
  suffixes.any fun s0 =>
    let s := cleanSuffix s0
    !(s == "") && (d == s || endsW d ("." ++ s) || endsW d s)

/-! ## Cheap heuristic classifier `substr_or_tld_suspicious`

The module-level mutable sets `LEARNED` and `FAMS` are passed explicitly
as lists (their iteration order fixed by the list order). -/

/-- `".".join(parts[-2:]) if len(parts) >= 2 else d` over `d.strip('.').split('.')`. -/
def etld1Of (d : String) : String :=
  let parts := (splitDot (stripDots d).data).map String.mk
  if parts.length ≥ 2 then String.intercalate "." (parts.drop (parts.length - 2)) else d

def substr_or_tld_suspicious (learned fams : List String) (domain : String) (cfg : Cfg) :
    Bool × List String :=
  let d := lowerS domain
  if domain_suffix_in_list d cfg.allowlist then (false, ["allowlist"])
  else
    let r1 : List String :=
      match cfg.suspicious_substrings.find? (fun ss => !(ss == "") && strIn (lowerS ss) d) with
      | some ss => ["substr:" ++ ss]
      | none => []
    let r2 : List String :=
      match learned.find? (fun tok => strIn tok d) with
      | some tok => ["learn:" ++ tok]
      | none => []
    let r3 : List String := if domain_suffix_in_list d cfg.suspicious_tlds then ["tld"] else []
    let e := etld1Of d
    let r4 : List String := if !fams.isEmpty && fams.contains e then ["fam:" ++ e] else []
    let reasons := r1 ++ r2 ++ r3 ++ r4
    (!reasons.isEmpty, reasons)

/-! ## Scoring: `compute_score` -/

/-- One cycle's traffic metrics for a domain (`hits`/`uniq`/`hours` keys). -/
structure TrafficM where
  hits : ℤ
  uniq : ℤ
  hours : ℤ
deriving DecidableEq

/-- The inner `norm(x, k) = x / (x + k)` soft saturation. -/
def normSquash (x k : ℚ) : ℚ :=
  x / (x + k)

/-- The per-tag booster increment from the `for r in reasons` loop of
`compute_score`. -/
def boostOf (r : String) : ℚ :=
  if startsW "substr:" r then 0.25
  else if startsW "learn:" r then 0.15
  else if r == "tld" || startsW "cname_tld" r then 0.20
  else if startsW "fam:" r || startsW "cname_fam" r then 0.15
  else if startsW "cname_" r then 0.20
  else 0

/-- The accumulated booster, capped by `boost = min(boost, 0.6)`. -/
def boostTotal (reasons : List String) : ℚ :=
  min (reasons.foldl (fun b r => b + boostOf r) 0) 0.6

/-- Embedding of `compute_score`: normalized metrics are blended with the
hard-coded weights 0.4/0.3/0.3, the booster is added, and the result is
clamped into [0, 1]. -/
def compute_score (domain : String) (m : TrafficM) (reasons : List String) (cfg : Cfg) : ℚ :=
  let hN := normSquash (m.hits : ℚ) cfg.score_hits_k
  let uN := normSquash (m.uniq : ℚ) cfg.score_uniq_k
  let tN := normSquash (m.hours : ℚ) cfg.score_hours_k
  let base := 0.4 * hN + 0.3 * uN + 0.3 * tN
  max 0 (min 1 (base + boostTotal reasons))

/-! ## CNAME resolution cache: `resolve_cname_chain`

The `dig` subprocess is abstracted as `lookup : String → Option String`
returning the first CNAME answer for a name, or `none` on no answer /
timeout / error (all of which `break` the loop identically).  The two
module-level caches `CNAME_CACHE` (in-run) and `CNAME_PERSIST`
(persistent, TTL-stamped) form the resolver state. -/

structure CacheEntry where
  chain : List String
  untilTs : ℤ
deriving DecidableEq

structure RState where
  cnameCache : List (String × List String)
  persist : List (String × CacheEntry)
deriving DecidableEq

/-- Association-list lookup, modelling Python `dict.get`. -/
def lookupA {α : Type} : List (String × α) → String → Option α
  | [], _ => none
  | p :: rest, d => if p.1 = d then some p.2 else lookupA rest d

/-- Association-list store, modelling Python `dict[k] = v` (dicts keep
insertion order: an existing key is overwritten in place, a new key is
appended). -/
def setEntry {α : Type} : List (String × α) → String → α → List (String × α)
  | [], d, v => [(d, v)]
  | p :: rest, d, v => if p.1 = d then (d, v) :: rest else p :: setEntry rest d v

/-- The resolution loop: up to `max_depth` single-hop lookups, following the
first returned CNAME each time, stopping early on a missing answer. -/
def chainFrom (lookup : String → Option String) : Nat → String → List String
  | 0, _ => []
  | Nat.succ n, cur =>
    match lookup cur with
    | none => []
    | some t => t :: chainFrom lookup n t

/-- Embedding of `resolve_cname_chain`: disabled below depth 1; a
non-expired persistent entry is returned verbatim; otherwise the in-run
cache is consulted; otherwise the chain is resolved and written to both
caches with `until = now + ttl`. -/
def resolve_cname_chain (lookup : String → Option String) (st : RState) (cfg : Cfg)
    (domain : String) (max_depth : ℤ) (now : ℤ) : List String × RState :=
  if max_depth < 1 then ([], st)
  else
    let d := rstripDot (lowerS domain)
    let recompute :=
      match lookupA st.cnameCache d with
      | some ch => (ch, st)
      | none =>
        let chain := chainFrom lookup max_depth.toNat d
        let ttl := cfg.cname_cache_ttl_hours * 3600
        (chain, ⟨setEntry st.cnameCache d chain, setEntry st.persist d ⟨chain, now + ttl⟩⟩)
    match lookupA st.persist d with
    | some pc => if pc.untilTs > now then (pc.chain, st) else recompute
    | none => recompute

/-- Embedding of the per-hop scan in `cname_suspicious`: each loop branch
ends in `return` or `break`, so the scan stops at the first hop that
matches anything. -/
def cnameScan (learned fams : List String) (cfg : Cfg) : List String → Bool × List String
  | [] => (false, [])
  | cname :: rest =>
    if domain_suffix_in_list cname cfg.allowlist then (false, ["cname_allowlist"])
    else if cfg.suspicious_substrings.any (fun ss => strIn ss cname) then
      (true, ["cname_substr:" ++ cname])
    else if !learned.isEmpty && learned.any (fun tok => strIn tok cname) then
      (true, ["cname_learn:" ++ cname])
    else if domain_suffix_in_list cname cfg.suspicious_tlds then
      (true, ["cname_tld:" ++ cname])
    else
      let parts := (splitDot (stripDots (lowerS cname)).data).map String.mk
      let e := if parts.length ≥ 2 then String.intercalate "." (parts.drop (parts.length - 2)) else cname
      if !fams.isEmpty && fams.contains e then (true, ["cname_fam:" ++ e])
      else cnameScan learned fams cfg rest

/-- Embedding of `cname_suspicious` (threading the resolver state). -/
def cname_suspicious (lookup : String → Option String) (st : RState)
    (learned fams : List String) (domain : String) (cfg : Cfg) (max_depth now : ℤ) :
    (Bool × List String) × RState :=
  if max_depth < 1 then ((false, []), st)
  else
    let r := resolve_cname_chain lookup st cfg domain max_depth now
    (cnameScan learned fams cfg r.1, r.2)

/-! ## Quarantine state machine (steps 5 and 6 of `main`) -/

/-- A persistent quarantine record, as stored in the quarantine JSON file. -/
structure QRec where
  first_seen : ℤ
  last_seen : ℤ
  score : ℚ
  reason : String
  hits : ℤ
  uniq : ℤ
  hours : ℤ
deriving DecidableEq

/-- An entry appended to `state["blocked"]` on successful promotion. -/
structure PromoEvent where
  domain : String
  ts : ℤ
  score : ℚ
deriving DecidableEq

/-- The external collaborators and clock of one run:
`is_blocked` models `is_already_blocked_anywhere`, `add_ok` models the
success of `add_to_blacklist`, `now` is the cycle timestamp. -/
structure RunCtx where
  is_blocked : String → Bool
  add_ok : String → Bool
  now : ℤ

/-- The promotion condition of line
`if age_hours >= q_hours and still_candidate and meta.get("score",0.0) >= promo_min_score`,
with `age_hours = (now - first_seen) / 3600.0`. -/
def promoteCond (meta : QRec) (now q_hours : ℤ) (still_candidate : Bool) (promo_min : ℚ) : Bool :=
  decide ((((now - meta.first_seen : ℤ) : ℚ) / 3600) ≥ (q_hours : ℚ)) && still_candidate &&
    decide (meta.score ≥ promo_min)

/-- The staleness test `(now - meta.get("last_seen", now)) > (3 * lookback * 3600)`. -/
def staleB (meta : QRec) (now lookback : ℤ) : Bool :=
  decide (now - meta.last_seen > 3 * lookback * 3600)

/-- One iteration of the promotion loop for a single record: returns the
surviving record (if any), the domains appended to `promoted`, and the
events appended to `state["blocked"]`.  Mirrors the branch structure of
the source: on the promote branch the record is always popped; the
stale branch only runs when the promote branch did not fire. -/
def stepEntry (cfg : Cfg) (ctx : RunCtx) (candDoms : List String) (d : String) (meta : QRec) :
    Option QRec × List String × List PromoEvent :=
  let still := candDoms.contains d
  if promoteCond meta ctx.now cfg.quarantine_hours still cfg.promotion_min_score then
    if ctx.is_blocked d then (none, [], [])
    else if cfg.dry_run then (none, [], [])
    else if ctx.add_ok d then (none, [d], [⟨d, ctx.now, meta.score⟩])
    else (none, [], [])
  else if staleB meta ctx.now cfg.lookback_hours then (none, [], [])
  else (some meta, [], [])

/-- Step 6 of `main`: the promotion/eviction pass over the quarantine dict. -/
def promoStep (cfg : Cfg) (ctx : RunCtx) (candDoms : List String) :
    List (String × QRec) → List (String × QRec) × List String × List PromoEvent
  | [] => ([], [], [])
  | (d, meta) :: rest =>
    let s := stepEntry cfg ctx candDoms d meta
    let r := promoStep cfg ctx candDoms rest
    ((match s.1 with | some m => (d, m) :: r.1 | none => r.1),
      s.2.1 ++ r.2.1, s.2.2 ++ r.2.2)

/-- The record written for candidate `d` in step 5 of `main`
(`entry.setdefault("first_seen", now)` keeps an existing `first_seen`;
everything else is overwritten with this cycle's values). -/
def mkEntry (cfg : Cfg) (now : ℤ) (old : Option QRec) (d : String) (m : TrafficM)
    (rlist : List String) : QRec :=
  { first_seen := match old with | some e => e.first_seen | none => now
    last_seen := now
    score := compute_score d m rlist cfg
    reason := if rlist.isEmpty then "" else joinSorted rlist
    hits := m.hits
    uniq := m.uniq
    hours := m.hours }

/-- Step 5 of `main`: every candidate `(d, metrics, reasons)` gets its
quarantine entry created or refreshed, in candidate order. -/
def updateQuar (cfg : Cfg) (now : ℤ) (cands : List (String × TrafficM × List String))
    (q : List (String × QRec)) : List (String × QRec) :=
  cands.foldl (fun acc c => setEntry acc c.1 (mkEntry cfg now (lookupA acc c.1) c.1 c.2.1 c.2.2)) q

/-- Steps 5 + 6 of one cycle: quarantine update followed by the
promotion/eviction pass (the `still_candidate` test uses exactly this
cycle's candidate domains). -/
def cycleFn (cfg : Cfg) (ctx : RunCtx) (cands : List (String × TrafficM × List String))
    (q : List (String × QRec)) : List (String × QRec) × List String × List PromoEvent :=
  promoStep cfg ctx (cands.map fun c => c.1) (updateQuar cfg ctx.now cands q)

/-! ## Claim theorems -/

/-- C1 (counterexample): the booster increment for a `cname_substr:`-tagged
reason (which falls through to the generic `cname_` branch, 0.20) is
strictly below the increment for its direct-match counterpart `substr:`
(0.25), both at the level of the per-tag increment and of `compute_score`
itself — refuting the claim that every CNAME-derived increment is at least
as large as its direct counterpart. -/
theorem booster_cname_substr_below_substr :
    boostOf "cname_substr:tracker.example" < boostOf "substr:track" ∧
    compute_score "d.example" ⟨0, 0, 0⟩ ["cname_substr:tracker.example"] defaultCfg <
      compute_score "d.example" ⟨0, 0, 0⟩ ["substr:track"] defaultCfg := by
  have h1 : boostOf "cname_substr:tracker.example" = 0.20 := rfl
  have h2 : boostOf "substr:track" = 0.25 := rfl
  constructor
  · rw [h1, h2]; norm_num
  · simp only [compute_score, boostTotal, normSquash, List.foldl, h1, h2, defaultCfg]
    norm_num [min_def, max_def]

/-- C1 (amended): in `compute_score`, the booster increments are
`substr:` 0.25, `cname_substr:` 0.20, `learn:` 0.15, `cname_learn:` 0.20,
`tld` 0.20, `cname_tld:` 0.20, `fam:` 0.15, `cname_fam:` 0.15 — so every
CNAME-derived tag weighs at least as much as its direct counterpart
except `cname_substr:`, which weighs strictly less than `substr:` — and
the accumulated booster is capped at 0.6. -/
theorem booster_increments_amended :
    (∀ s : String, boostOf ("substr:" ++ s) = 0.25) ∧
    (∀ s : String, boostOf ("cname_substr:" ++ s) = 0.20) ∧
    (∀ s : String, boostOf ("learn:" ++ s) = 0.15) ∧
    (∀ s : String, boostOf ("cname_learn:" ++ s) = 0.20) ∧
    boostOf "tld" = 0.20 ∧
    (∀ s : String, boostOf ("cname_tld:" ++ s) = 0.20) ∧
    (∀ s : String, boostOf ("fam:" ++ s) = 0.15) ∧
    (∀ s : String, boostOf ("cname_fam:" ++ s) = 0.15) ∧
    (∀ reasons : List String, boostTotal reasons ≤ 0.6) :=
  ⟨fun _ => rfl, fun _ => rfl, fun _ => rfl, fun _ => rfl, rfl, fun _ => rfl,
    fun _ => rfl, fun _ => rfl, fun _ => min_le_right _ _⟩

/-- C4: for any metrics and reason tags (with non-negative metric values
and positive half-saturation constants, as in the defaults 20/3/6),
`compute_score` stays within [0, 1]. -/
theorem compute_score_in_unit_interval (domain : String) (m : TrafficM) (reasons : List String)
    (cfg : Cfg) (hh : 0 ≤ m.hits) (hu : 0 ≤ m.uniq) (hr : 0 ≤ m.hours)
    (hk1 : 0 < cfg.score_hits_k) (hk2 : 0 < cfg.score_uniq_k) (hk3 : 0 < cfg.score_hours_k) :
    0 ≤ compute_score domain m reasons cfg ∧ compute_score domain m reasons cfg ≤ 1 := by
  unfold compute_score
  exact ⟨le_max_left 0 _, max_le (by norm_num) (min_le_left 1 _)⟩

theorem compute_score_in_unit_interval_witness :
    0 ≤ compute_score "x.top" ⟨50, 5, 8⟩ ["tld"] defaultCfg ∧
      compute_score "x.top" ⟨50, 5, 8⟩ ["tld"] defaultCfg ≤ 1 :=
  compute_score_in_unit_interval "x.top" ⟨50, 5, 8⟩ ["tld"] defaultCfg
    (by decide) (by decide) (by decide) (by decide) (by decide) (by decide)

/-- C9: on metrics hits=50, uniq=5, hours=8 with reason `["tld"]` and the
default constants (k = 20/3/6, weights 0.4/0.3/0.3, tld boost 0.20),
`compute_score` returns exactly `0.4*(50/70) + 0.3*(5/8) + 0.3*(8/14) + 0.20`
(which is 473/560 ≈ 0.845). -/
theorem compute_score_default_scenario :
    compute_score "x.example" ⟨50, 5, 8⟩ ["tld"] defaultCfg =
      0.4 * (50 / 70) + 0.3 * (5 / 8) + 0.3 * (8 / 14) + 0.20 := by
  have hb : boostOf "tld" = 0.20 := rfl
  simp only [compute_score, boostTotal, normSquash, List.foldl, hb, defaultCfg]
  norm_num [min_def, max_def]

/-- C5: a domain matching the configured allowlist makes
`substr_or_tld_suspicious` return not-suspicious with exactly the tag
`"allowlist"`, whatever the learned keywords, reputation families, and
other configured heuristics would say. -/
theorem allowlist_supremacy (learned fams : List String) (domain : String) (cfg : Cfg)
    (h : domain_suffix_in_list (lowerS domain) cfg.allowlist = true) :
    substr_or_tld_suspicious learned fams domain cfg = (false, ["allowlist"]) := by
  unfold substr_or_tld_suspicious
  simp [h]

theorem allowlist_supremacy_witness :
    substr_or_tld_suspicious ["goog"] ["google.com"] "ads.google.com"
      { allowlist := ["google.com"], suspicious_substrings := ["ads"],
        suspicious_tlds := ["com"] } = (false, ["allowlist"]) :=
  allowlist_supremacy ["goog"] ["google.com"] "ads.google.com"
    { allowlist := ["google.com"], suspicious_substrings := ["ads"], suspicious_tlds := ["com"] }
    (by decide)

/-- C10: `domain_suffix_in_list` matches bare string suffixes without
requiring a label boundary: any list entry whose normalization (lowercase,
whitespace-trimmed, leading `*` stripped) is non-empty matches every
domain that merely ends with it — e.g. entry `"le.com"` matches
`"google.com"` — and this function is the one used for both the allowlist
and the suspicious-TLD check. -/
theorem domain_suffix_bare_suffix_match (domain : String) (suffixes : List String) (s : String)
    (hmem : s ∈ suffixes) (hne : cleanSuffix s ≠ "")
    (hend : endsW (rstripDot (lowerS domain)) (cleanSuffix s) = true) :
    domain_suffix_in_list domain suffixes = true := by
  unfold domain_suffix_in_list
  simp only [List.any_eq_true]
  exact ⟨s, hmem, by simp [hend, hne]⟩

theorem domain_suffix_bare_suffix_match_witness :
    domain_suffix_in_list "google.com" ["le.com"] = true :=
  domain_suffix_bare_suffix_match "google.com" ["le.com"] "le.com"
    (by decide) (by decide) (by decide)

/-! ## Helper lemmas for the promotion pass -/

lemma stepEntry_fst (cfg : Cfg) (ctx : RunCtx) (candDoms : List String) (d : String) (meta : QRec) :
    (stepEntry cfg ctx candDoms d meta).1 =
      if promoteCond meta ctx.now cfg.quarantine_hours (candDoms.contains d)
            cfg.promotion_min_score
          || staleB meta ctx.now cfg.lookback_hours then
        none
      else some meta := by
  simp only [stepEntry]
  cases hp : promoteCond meta ctx.now cfg.quarantine_hours (candDoms.contains d)
      cfg.promotion_min_score
  · cases hs : staleB meta ctx.now cfg.lookback_hours <;> simp
  · cases hb : ctx.is_blocked d <;> cases hd : cfg.dry_run <;> cases ha : ctx.add_ok d <;>
      simp [hb, hd, ha]

lemma mem_promoStep_kept (cfg : Cfg) (ctx : RunCtx) (candDoms : List String)
    (q : List (String × QRec)) (d : String) (meta : QRec)
    (h : (d, meta) ∈ (promoStep cfg ctx candDoms q).1) :
    (d, meta) ∈ q ∧
      promoteCond meta ctx.now cfg.quarantine_hours (candDoms.contains d)
        cfg.promotion_min_score = false ∧
      staleB meta ctx.now cfg.lookback_hours = false := by
  induction q with
  | nil => simp [promoStep] at h
  | cons p rest ih =>
    obtain ⟨d0, m0⟩ := p
    rw [promoStep] at h
    simp only [stepEntry_fst] at h
    by_cases hc : (promoteCond m0 ctx.now cfg.quarantine_hours (candDoms.contains d0)
        cfg.promotion_min_score
        || staleB m0 ctx.now cfg.lookback_hours) = true
    · rw [if_pos hc] at h
      have h2 := ih h
      exact ⟨List.mem_cons_of_mem _ h2.1, h2.2.1, h2.2.2⟩
    · rw [if_neg hc] at h
      have hor := Bool.or_eq_false_iff.mp (Bool.eq_false_iff.mpr hc)
      rcases List.mem_cons.mp h with heq | hrest
      · injection heq with hd hm
        subst hd
        subst hm
        exact ⟨List.mem_cons_self _ _, hor.1, hor.2⟩
      · have h2 := ih hrest
        exact ⟨List.mem_cons_of_mem _ h2.1, h2.2.1, h2.2.2⟩

/-! ## Concrete fixtures used by witness theorems -/

def cfgW : Cfg := { promotion_min_score := 1, quarantine_hours := 0, lookback_hours := 24 }

def ctxW : RunCtx := { is_blocked := fun _ => false, add_ok := fun _ => false, now := 0 }

def recW : QRec := ⟨0, 0, 1, "tld", 50, 5, 8⟩

/-- C2: for a quarantined record with score 1.0 evaluated while still a
candidate (and with any promotion threshold ≤ 1), the promote branch fires
exactly when `(now - first_seen)` has reached the dwell time
`q_hours` (in seconds): it cannot fire strictly before, and must fire at
or after. -/
theorem dwell_time_gate (meta : QRec) (now q_hours : ℤ) (promo_min : ℚ)
    (hscore : meta.score = 1) (hpmin : promo_min ≤ 1) :
    promoteCond meta now q_hours true promo_min = true ↔
      q_hours * 3600 ≤ now - meta.first_seen := by
  unfold promoteCond
  have h1 : decide (meta.score ≥ promo_min) = true :=
    decide_eq_true (by rw [hscore]; exact hpmin)
  rw [h1]
  simp only [Bool.and_true, decide_eq_true_eq, ge_iff_le]
  rw [le_div_iff₀ (by norm_num : (0:ℚ) < 3600)]
  constructor
  · intro h; exact_mod_cast h
  · intro h; exact_mod_cast h

theorem dwell_time_gate_witness :
    promoteCond ⟨0, 50000, 1, "tld", 50, 5, 8⟩ 50000 12 true 1 = true :=
  (dwell_time_gate ⟨0, 50000, 1, "tld", 50, 5, 8⟩ 50000 12 1 rfl le_rfl).mpr (by decide)

/-- C3: when the promote branch fires, the domain is not already blocked,
dry-run is off, and the Promotion Sink (`add_to_blacklist`) reports
failure, the quarantine record is still removed and nothing is appended
to `promoted` or to the blocked log. -/
theorem promotion_sink_failure_drops_record (cfg : Cfg) (ctx : RunCtx) (candDoms : List String)
    (d : String) (meta : QRec)
    (hcond : promoteCond meta ctx.now cfg.quarantine_hours (candDoms.contains d)
      cfg.promotion_min_score = true)
    (hblocked : ctx.is_blocked d = false) (hdry : cfg.dry_run = false)
    (hsink : ctx.add_ok d = false) :
    stepEntry cfg ctx candDoms d meta = (none, [], []) := by
  unfold stepEntry
  simp only [hcond, hblocked, hdry, hsink]
  simp

theorem promotion_sink_failure_drops_record_witness :
    stepEntry cfgW ctxW ["x.com"] "x.com" recW = (none, [], []) :=
  promotion_sink_failure_drops_record cfgW ctxW ["x.com"] "x.com" recW
    (by simp [promoteCond, cfgW, ctxW, recW]) rfl rfl rfl

/-- C6: after the promotion/eviction pass, every surviving quarantine
record satisfies `now - last_seen ≤ 3 * lookback * 3600`; equivalently,
any record whose staleness exceeds three lookback windows is removed in
that pass, regardless of its score or dwell time. -/
theorem staleness_eviction_bound (cfg : Cfg) (ctx : RunCtx) (candDoms : List String)
    (q : List (String × QRec)) :
    (∀ d meta, (d, meta) ∈ (promoStep cfg ctx candDoms q).1 →
      ctx.now - meta.last_seen ≤ 3 * cfg.lookback_hours * 3600) ∧
    (∀ d meta, (d, meta) ∈ q →
      3 * cfg.lookback_hours * 3600 < ctx.now - meta.last_seen →
      (d, meta) ∉ (promoStep cfg ctx candDoms q).1) := by
  have key : ∀ d meta, (d, meta) ∈ (promoStep cfg ctx candDoms q).1 →
      ctx.now - meta.last_seen ≤ 3 * cfg.lookback_hours * 3600 := by
    intro d meta h
    have h3 := (mem_promoStep_kept cfg ctx candDoms q d meta h).2.2
    unfold staleB at h3
    have h4 : ¬(ctx.now - meta.last_seen > 3 * cfg.lookback_hours * 3600) :=
      of_decide_eq_false h3
    omega
  refine ⟨key, fun d meta _ hlt hk => absurd (key d meta hk) (by omega)⟩

theorem staleness_eviction_bound_witness :
    ctxW.now - recW.last_seen ≤ 3 * cfgW.lookback_hours * 3600 :=
  (staleness_eviction_bound cfgW ctxW [] [("a.com", recW)]).1 "a.com" recW
    (by simp [promoStep, stepEntry, promoteCond, staleB, cfgW, ctxW, recW])

/-- C8: with CNAME resolution enabled (`max_depth ≥ 1`), a persistent
cache entry is returned verbatim — with no resolver call and no in-run
cache consultation, since the result does not depend on either — exactly
when its expiry is strictly in the future; an entry whose expiry is at or
before `now` is ignored and the chain is recomputed from the in-run
cache or, failing that, by fresh resolution. -/
theorem cname_cache_expiry_gate (lookup : String → Option String) (st : RState) (cfg : Cfg)
    (domain : String) (max_depth now : ℤ) (pc : CacheEntry)
    (hmd : 1 ≤ max_depth)
    (hpc : lookupA st.persist (rstripDot (lowerS domain)) = some pc) :
    (now < pc.untilTs →
      resolve_cname_chain lookup st cfg domain max_depth now = (pc.chain, st)) ∧
    (pc.untilTs ≤ now →
      (resolve_cname_chain lookup st cfg domain max_depth now).1 =
        match lookupA st.cnameCache (rstripDot (lowerS domain)) with
        | some ch => ch
        | none => chainFrom lookup max_depth.toNat (rstripDot (lowerS domain))) := by
  constructor
  · intro h
    unfold resolve_cname_chain
    rw [if_neg (by omega : ¬ max_depth < 1)]
    simp only [hpc]
    rw [if_pos h]
  · intro h
    unfold resolve_cname_chain
    rw [if_neg (by omega : ¬ max_depth < 1)]
    simp only [hpc]
    rw [if_neg (not_lt.mpr h)]
    cases hc : lookupA st.cnameCache (rstripDot (lowerS domain)) <;> simp [hc]

theorem cname_cache_expiry_gate_witness :
    resolve_cname_chain (fun _ => none)
      ⟨[], [("a.com", ⟨["b.com"], 100⟩)]⟩ defaultCfg "a.com" 1 50 =
      (["b.com"], ⟨[], [("a.com", ⟨["b.com"], 100⟩)]⟩) :=
  (cname_cache_expiry_gate (fun _ => none) ⟨[], [("a.com", ⟨["b.com"], 100⟩)]⟩ defaultCfg
    "a.com" 1 50 ⟨["b.com"], 100⟩ (by decide) (by decide)).1 (by decide)

/-! ## Association-list lemmas -/

lemma setEntry_cons_pos {α : Type} (p : String × α) (rest : List (String × α)) (k : String)
    (v : α) (hp : p.1 = k) : setEntry (p :: rest) k v = (k, v) :: rest := by
  simp [setEntry, hp]

lemma setEntry_cons_neg {α : Type} (p : String × α) (rest : List (String × α)) (k : String)
    (v : α) (hp : ¬p.1 = k) : setEntry (p :: rest) k v = p :: setEntry rest k v := by
  simp [setEntry, hp]

lemma lookupA_setEntry_self {α : Type} (q : List (String × α)) (k : String) (v : α) :
    lookupA (setEntry q k v) k = some v := by
  induction q with
  | nil => simp [setEntry, lookupA]
  | cons p rest ih =>
    by_cases hp : p.1 = k
    · simp [setEntry_cons_pos p rest k v hp, lookupA]
    · rw [setEntry_cons_neg p rest k v hp]
      simp only [lookupA, if_neg hp]
      exact ih

lemma lookupA_setEntry_ne {α : Type} (q : List (String × α)) (k e : String) (v : α)
    (h : e ≠ k) : lookupA (setEntry q k v) e = lookupA q e := by
  induction q with
  | nil =>
    simp only [setEntry, lookupA]
    rw [if_neg (Ne.symm h)]
  | cons p rest ih =>
    by_cases hp : p.1 = k
    · rw [setEntry_cons_pos p rest k v hp]
      simp only [lookupA]
      rw [if_neg (Ne.symm h), if_neg (by rw [hp]; exact Ne.symm h)]
    · rw [setEntry_cons_neg p rest k v hp]
      simp only [lookupA]
      by_cases he : p.1 = e
      · rw [if_pos he, if_pos he]
      · rw [if_neg he, if_neg he]
        exact ih

lemma mem_keys_setEntry {α : Type} (q : List (String × α)) (k e : String) (v : α) :
    e ∈ (setEntry q k v).map Prod.fst ↔ e ∈ q.map Prod.fst ∨ e = k := by
  induction q with
  | nil => simp [setEntry]
  | cons p rest ih =>
    by_cases hp : p.1 = k
    · rw [setEntry_cons_pos p rest k v hp]
      simp only [List.map_cons, List.mem_cons, hp]
      tauto
    · rw [setEntry_cons_neg p rest k v hp]
      simp only [List.map_cons, List.mem_cons, ih]
      tauto

lemma nodup_keys_setEntry {α : Type} (q : List (String × α)) (k : String) (v : α)
    (h : (q.map Prod.fst).Nodup) : ((setEntry q k v).map Prod.fst).Nodup := by
  induction q with
  | nil => simp [setEntry]
  | cons p rest ih =>
    simp only [List.map_cons, List.nodup_cons] at h
    by_cases hp : p.1 = k
    · rw [setEntry_cons_pos p rest k v hp]
      simp only [List.map_cons, List.nodup_cons]
      exact ⟨hp ▸ h.1, h.2⟩
    · rw [setEntry_cons_neg p rest k v hp]
      simp only [List.map_cons, List.nodup_cons]
      refine ⟨fun hm => ?_, ih h.2⟩
      rcases (mem_keys_setEntry rest k p.1 v).mp hm with hm2 | hm2
      · exact h.1 hm2
      · exact hp hm2

lemma lookupA_eq_none_iff {α : Type} (q : List (String × α)) (e : String) :
    lookupA q e = none ↔ e ∉ q.map Prod.fst := by
  induction q with
  | nil => simp [lookupA]
  | cons p rest ih =>
    simp only [lookupA, List.map_cons, List.mem_cons]
    by_cases hp : p.1 = e
    · simp [hp]
    · rw [if_neg hp]
      simp only [ih]
      constructor
      · intro h2 hor
        rcases hor with h3 | h3
        · exact hp h3.symm
        · exact h2 h3
      · intro h2 h3
        exact h2 (Or.inr h3)

lemma lookupA_of_mem_nodup {α : Type} (q : List (String × α)) (d : String) (m : α)
    (h : (q.map Prod.fst).Nodup) (hm : (d, m) ∈ q) : lookupA q d = some m := by
  induction q with
  | nil => cases hm
  | cons p rest ih =>
    simp only [List.map_cons, List.nodup_cons] at h
    rcases List.mem_cons.mp hm with heq | hmem
    · rw [← heq]
      simp [lookupA]
    · have hne : p.1 ≠ d := by
        intro he
        exact h.1 (he ▸ List.mem_map.mpr ⟨(d, m), hmem, rfl⟩)
      simp only [lookupA, if_neg hne]
      exact ih h.2 hmem

lemma mem_of_lookupA {α : Type} (q : List (String × α)) (d : String) (m : α)
    (h : lookupA q d = some m) : (d, m) ∈ q := by
  induction q with
  | nil => simp [lookupA] at h
  | cons p rest ih =>
    obtain ⟨a, b⟩ := p
    simp only [lookupA] at h
    by_cases hp : a = d
    · rw [if_pos hp] at h
      subst hp
      rw [← Option.some.inj h]
      exact List.mem_cons_self _ _
    · rw [if_neg hp] at h
      exact List.mem_cons_of_mem _ (ih h)

/-! ## Lemmas about the quarantine update (step 5) -/

lemma updateQuar_nil (cfg : Cfg) (now : ℤ) (q : List (String × QRec)) :
    updateQuar cfg now [] q = q := rfl

lemma updateQuar_cons (cfg : Cfg) (now : ℤ) (c : String × TrafficM × List String)
    (cs : List (String × TrafficM × List String)) (q : List (String × QRec)) :
    updateQuar cfg now (c :: cs) q =
      updateQuar cfg now cs (setEntry q c.1 (mkEntry cfg now (lookupA q c.1) c.1 c.2.1 c.2.2)) :=
  rfl

lemma lookupA_updateQuar_of_not_cand (cfg : Cfg) (now : ℤ)
    (cands : List (String × TrafficM × List String)) (q : List (String × QRec)) (d : String)
    (h : d ∉ cands.map fun c => c.1) :
    lookupA (updateQuar cfg now cands q) d = lookupA q d := by
  induction cands generalizing q with
  | nil => rfl
  | cons c cs ih =>
    simp only [List.map_cons, List.mem_cons, not_or] at h
    rw [updateQuar_cons, ih _ h.2, lookupA_setEntry_ne _ _ _ _ h.1]

lemma lookupA_updateQuar_of_cand (cfg : Cfg) (now : ℤ)
    (cands : List (String × TrafficM × List String)) (q : List (String × QRec))
    (c : String × TrafficM × List String)
    (hnc : (cands.map fun x => x.1).Nodup) (hc : c ∈ cands) :
    lookupA (updateQuar cfg now cands q) c.1 =
      some (mkEntry cfg now (lookupA q c.1) c.1 c.2.1 c.2.2) := by
  induction cands generalizing q with
  | nil => cases hc
  | cons c0 cs ih =>
    simp only [List.map_cons, List.nodup_cons] at hnc
    rw [updateQuar_cons]
    rcases List.mem_cons.mp hc with heq | hmem
    · subst heq
      have hnot : c.1 ∉ cs.map fun x => x.1 := hnc.1
      rw [lookupA_updateQuar_of_not_cand _ _ _ _ _ hnot, lookupA_setEntry_self]
    · have hne : c.1 ≠ c0.1 := by
        intro he
        exact hnc.1 (he ▸ List.mem_map.mpr ⟨c, hmem, rfl⟩)
      rw [ih _ hnc.2 hmem, lookupA_setEntry_ne _ _ _ _ hne]

lemma nodup_keys_updateQuar (cfg : Cfg) (now : ℤ)
    (cands : List (String × TrafficM × List String)) (q : List (String × QRec))
    (h : (q.map Prod.fst).Nodup) : ((updateQuar cfg now cands q).map Prod.fst).Nodup := by
  induction cands generalizing q with
  | nil => exact h
  | cons c cs ih => exact updateQuar_cons cfg now c cs q ▸ ih _ (nodup_keys_setEntry _ _ _ h)

/-! ## Lemmas about the promotion pass (step 6) -/

lemma promoStep_cons_fst (cfg : Cfg) (ctx : RunCtx) (cd : List String) (d0 : String)
    (m0 : QRec) (rest : List (String × QRec)) :
    (promoStep cfg ctx cd ((d0, m0) :: rest)).1 =
      if promoteCond m0 ctx.now cfg.quarantine_hours (cd.contains d0) cfg.promotion_min_score
          || staleB m0 ctx.now cfg.lookback_hours then
        (promoStep cfg ctx cd rest).1
      else (d0, m0) :: (promoStep cfg ctx cd rest).1 := by
  rw [promoStep]
  simp only [stepEntry_fst]
  cases hcond : (promoteCond m0 ctx.now cfg.quarantine_hours (cd.contains d0)
      cfg.promotion_min_score || staleB m0 ctx.now cfg.lookback_hours) <;> simp

lemma promoStep_cons_promoted (cfg : Cfg) (ctx : RunCtx) (cd : List String) (d0 : String)
    (m0 : QRec) (rest : List (String × QRec)) :
    (promoStep cfg ctx cd ((d0, m0) :: rest)).2.1 =
      (stepEntry cfg ctx cd d0 m0).2.1 ++ (promoStep cfg ctx cd rest).2.1 := rfl

lemma promoStep_cons_events (cfg : Cfg) (ctx : RunCtx) (cd : List String) (d0 : String)
    (m0 : QRec) (rest : List (String × QRec)) :
    (promoStep cfg ctx cd ((d0, m0) :: rest)).2.2 =
      (stepEntry cfg ctx cd d0 m0).2.2 ++ (promoStep cfg ctx cd rest).2.2 := rfl

lemma promoStep_fst_sublist (cfg : Cfg) (ctx : RunCtx) (cd : List String)
    (q : List (String × QRec)) : ((promoStep cfg ctx cd q).1).Sublist q := by
  induction q with
  | nil => simp [promoStep]
  | cons p rest ih =>
    obtain ⟨d0, m0⟩ := p
    rw [promoStep_cons_fst]
    by_cases hcond : (promoteCond m0 ctx.now cfg.quarantine_hours (cd.contains d0)
        cfg.promotion_min_score || staleB m0 ctx.now cfg.lookback_hours) = true
    · rw [if_pos hcond]
      exact ih.cons _
    · rw [if_neg hcond]
      exact ih.cons₂ _

lemma lookupA_promoStep_none (cfg : Cfg) (ctx : RunCtx) (cd : List String)
    (q : List (String × QRec)) (e : String) (h : lookupA q e = none) :
    lookupA (promoStep cfg ctx cd q).1 e = none := by
  induction q with
  | nil => simp [promoStep, lookupA]
  | cons p rest ih =>
    obtain ⟨d0, m0⟩ := p
    simp only [lookupA] at h
    by_cases he : d0 = e
    · rw [if_pos he] at h
      cases h
    · rw [if_neg he] at h
      rw [promoStep_cons_fst]
      by_cases hcond : (promoteCond m0 ctx.now cfg.quarantine_hours (cd.contains d0)
          cfg.promotion_min_score || staleB m0 ctx.now cfg.lookback_hours) = true
      · rw [if_pos hcond]
        exact ih h
      · rw [if_neg hcond]
        simp only [lookupA, if_neg he]
        exact ih h

lemma lookupA_promoStep_some (cfg : Cfg) (ctx : RunCtx) (cd : List String)
    (q : List (String × QRec)) (e : String) (m : QRec)
    (hnd : (q.map Prod.fst).Nodup) (h : lookupA q e = some m) :
    lookupA (promoStep cfg ctx cd q).1 e =
      if promoteCond m ctx.now cfg.quarantine_hours (cd.contains e) cfg.promotion_min_score
          || staleB m ctx.now cfg.lookback_hours then none
      else some m := by
  induction q with
  | nil => cases h
  | cons p rest ih =>
    obtain ⟨d0, m0⟩ := p
    simp only [List.map_cons, List.nodup_cons] at hnd
    simp only [lookupA] at h
    rw [promoStep_cons_fst]
    by_cases he : d0 = e
    · rw [if_pos he] at h
      have hm : m0 = m := Option.some.inj h
      subst hm
      subst he
      by_cases hcond : (promoteCond m0 ctx.now cfg.quarantine_hours (cd.contains d0)
          cfg.promotion_min_score || staleB m0 ctx.now cfg.lookback_hours) = true
      · rw [if_pos hcond, if_pos hcond]
        exact lookupA_promoStep_none cfg ctx cd rest d0
          ((lookupA_eq_none_iff rest d0).mpr hnd.1)
      · rw [if_neg hcond, if_neg hcond]
        simp [lookupA]
    · rw [if_neg he] at h
      by_cases hcond : (promoteCond m0 ctx.now cfg.quarantine_hours (cd.contains d0)
          cfg.promotion_min_score || staleB m0 ctx.now cfg.lookback_hours) = true
      · rw [if_pos hcond]
        exact ih hnd.2 h
      · rw [if_neg hcond]
        simp only [lookupA, if_neg he]
        exact ih hnd.2 h

lemma stepEntry_snd_of_no_promote (cfg : Cfg) (ctx : RunCtx) (cd : List String) (d : String)
    (meta : QRec)
    (h : promoteCond meta ctx.now cfg.quarantine_hours (cd.contains d)
      cfg.promotion_min_score = false) :
    (stepEntry cfg ctx cd d meta).2 = ([], []) := by
  unfold stepEntry
  simp only [h]
  cases hs : staleB meta ctx.now cfg.lookback_hours <;> simp

lemma promoStep_snd_of_no_promote (cfg : Cfg) (ctx : RunCtx) (cd : List String)
    (q : List (String × QRec))
    (h : ∀ p ∈ q, promoteCond p.2 ctx.now cfg.quarantine_hours (cd.contains p.1)
      cfg.promotion_min_score = false) :
    (promoStep cfg ctx cd q).2.1 = [] ∧ (promoStep cfg ctx cd q).2.2 = [] := by
  induction q with
  | nil => simp [promoStep]
  | cons p rest ih =>
    obtain ⟨d0, m0⟩ := p
    rw [promoStep]
    have hs := stepEntry_snd_of_no_promote cfg ctx cd d0 m0 (h (d0, m0) (List.mem_cons_self _ _))
    have hr := ih fun p hp => h p (List.mem_cons_of_mem _ hp)
    have hs1 : (stepEntry cfg ctx cd d0 m0).2.1 = [] := by rw [hs]
    have hs2 : (stepEntry cfg ctx cd d0 m0).2.2 = [] := by rw [hs]
    simp [hs1, hs2, hr.1, hr.2]

/-! ## Freshly created records cannot promote or evict immediately -/

lemma mkEntry_first_seen_none (cfg : Cfg) (now : ℤ) (d : String) (mt : TrafficM)
    (rl : List String) : (mkEntry cfg now none d mt rl).first_seen = now := rfl

lemma mkEntry_last_seen (cfg : Cfg) (now : ℤ) (old : Option QRec) (d : String) (mt : TrafficM)
    (rl : List String) : (mkEntry cfg now old d mt rl).last_seen = now := by
  cases old <;> rfl

lemma mkEntry_on_some (cfg : Cfg) (now : ℤ) (old : Option QRec) (d : String) (mt : TrafficM)
    (rl : List String) :
    mkEntry cfg now (some (mkEntry cfg now old d mt rl)) d mt rl = mkEntry cfg now old d mt rl := by
  cases old <;> rfl

lemma promoteCond_fresh_false (cfg : Cfg) (now qh : ℤ) (d : String) (mt : TrafficM)
    (rl : List String) (still : Bool) (pmin : ℚ) (hqh : 0 < qh) :
    promoteCond (mkEntry cfg now none d mt rl) now qh still pmin = false := by
  unfold promoteCond
  have h1 : decide ((((now - (mkEntry cfg now none d mt rl).first_seen : ℤ) : ℚ) / 3600) ≥
      (qh : ℚ)) = false := by
    apply decide_eq_false
    rw [mkEntry_first_seen_none]
    simp only [sub_self, Int.cast_zero, zero_div, ge_iff_le]
    intro hge
    have h2 : qh ≤ 0 := by exact_mod_cast hge
    omega
  rw [h1]
  simp

lemma staleB_fresh_false (cfg : Cfg) (now lb : ℤ) (old : Option QRec) (d : String)
    (mt : TrafficM) (rl : List String) (hlb : 0 ≤ lb) :
    staleB (mkEntry cfg now old d mt rl) now lb = false := by
  unfold staleB
  apply decide_eq_false
  rw [mkEntry_last_seen]
  omega

/-- C7: running the quarantine update + promotion/eviction step twice with
the same candidates (same metrics and classification results) and the same
clock leaves every record that survived the first run present with exactly
the same contents (so its score and reason are unchanged, and nothing is
evicted beyond the first run), and the second run promotes nothing and
logs no event (given a positive dwell time and non-negative lookback, and
candidate domains and quarantine keys unique as Python dicts guarantee). -/
theorem cycle_idempotent_on_unchanged_input (cfg : Cfg) (ctx : RunCtx)
    (cands : List (String × TrafficM × List String)) (q0 : List (String × QRec))
    (hqh : 0 < cfg.quarantine_hours) (hlb : 0 ≤ cfg.lookback_hours)
    (hnc : (cands.map fun c => c.1).Nodup) (hnq : (q0.map Prod.fst).Nodup) :
    (∀ d m, lookupA (cycleFn cfg ctx cands q0).1 d = some m →
      lookupA (cycleFn cfg ctx cands (cycleFn cfg ctx cands q0).1).1 d = some m) ∧
    (cycleFn cfg ctx cands (cycleFn cfg ctx cands q0).1).2.1 = [] ∧
    (cycleFn cfg ctx cands (cycleFn cfg ctx cands q0).1).2.2 = [] := by
  have hnu1 : ((updateQuar cfg ctx.now cands q0).map Prod.fst).Nodup :=
    nodup_keys_updateQuar _ _ _ _ hnq
  have hq1def : (cycleFn cfg ctx cands q0).1 =
      (promoStep cfg ctx (cands.map fun c => c.1) (updateQuar cfg ctx.now cands q0)).1 := rfl
  have hnq1 : (((cycleFn cfg ctx cands q0).1).map Prod.fst).Nodup := by
    rw [hq1def]
    exact List.Nodup.sublist ((promoStep_fst_sublist cfg ctx _ _).map Prod.fst) hnu1
  have hnu2 : ((updateQuar cfg ctx.now cands (cycleFn cfg ctx cands q0).1).map
      Prod.fst).Nodup := nodup_keys_updateQuar _ _ _ _ hnq1
  have key1 : ∀ d m, lookupA (cycleFn cfg ctx cands q0).1 d = some m →
      lookupA (updateQuar cfg ctx.now cands q0) d = some m ∧
      (promoteCond m ctx.now cfg.quarantine_hours ((cands.map fun c => c.1).contains d)
          cfg.promotion_min_score || staleB m ctx.now cfg.lookback_hours) = false := by
    intro d m h
    rw [hq1def] at h
    cases hu : lookupA (updateQuar cfg ctx.now cands q0) d with
    | none =>
      rw [lookupA_promoStep_none _ _ _ _ _ hu] at h
      cases h
    | some m1 =>
      rw [lookupA_promoStep_some _ _ _ _ _ _ hnu1 hu] at h
      by_cases hcond : (promoteCond m1 ctx.now cfg.quarantine_hours
          ((cands.map fun c => c.1).contains d) cfg.promotion_min_score
          || staleB m1 ctx.now cfg.lookback_hours) = true
      · rw [if_pos hcond] at h
        cases h
      · rw [if_neg hcond] at h
        obtain rfl := Option.some.inj h
        exact ⟨rfl, Bool.eq_false_iff.mpr hcond⟩
  have key2 : ∀ d m, lookupA (cycleFn cfg ctx cands q0).1 d = some m →
      lookupA (updateQuar cfg ctx.now cands (cycleFn cfg ctx cands q0).1) d = some m := by
    intro d m h
    by_cases hd : d ∈ cands.map fun c => c.1
    · obtain ⟨c, hcmem, hc1⟩ := List.mem_map.mp hd
      have hu1 : lookupA (updateQuar cfg ctx.now cands q0) c.1 =
          some (mkEntry cfg ctx.now (lookupA q0 c.1) c.1 c.2.1 c.2.2) :=
        lookupA_updateQuar_of_cand _ _ _ _ _ hnc hcmem
      have hu2 : lookupA (updateQuar cfg ctx.now cands (cycleFn cfg ctx cands q0).1) c.1 =
          some (mkEntry cfg ctx.now (lookupA (cycleFn cfg ctx cands q0).1 c.1) c.1
            c.2.1 c.2.2) :=
        lookupA_updateQuar_of_cand _ _ _ _ _ hnc hcmem
      rw [hc1] at hu1 hu2
      have h1 := (key1 d m h).1
      have hm : m = mkEntry cfg ctx.now (lookupA q0 d) d c.2.1 c.2.2 :=
        Option.some.inj (h1.symm.trans hu1)
      rw [hu2, h, hm]
      exact congrArg some (mkEntry_on_some cfg ctx.now (lookupA q0 d) d c.2.1 c.2.2)
    · rw [lookupA_updateQuar_of_not_cand _ _ _ _ _ hd]
      exact h
  have keyAll : ∀ p ∈ updateQuar cfg ctx.now cands (cycleFn cfg ctx cands q0).1,
      (promoteCond p.2 ctx.now cfg.quarantine_hours
          ((cands.map fun c => c.1).contains p.1) cfg.promotion_min_score
        || staleB p.2 ctx.now cfg.lookback_hours) = false := by
    intro p hp
    obtain ⟨d, m⟩ := p
    have hlk : lookupA (updateQuar cfg ctx.now cands (cycleFn cfg ctx cands q0).1) d =
        some m := lookupA_of_mem_nodup _ _ _ hnu2 hp
    by_cases hd : d ∈ cands.map fun c => c.1
    · obtain ⟨c, hcmem, hc1⟩ := List.mem_map.mp hd
      have hu2 : lookupA (updateQuar cfg ctx.now cands (cycleFn cfg ctx cands q0).1) c.1 =
          some (mkEntry cfg ctx.now (lookupA (cycleFn cfg ctx cands q0).1 c.1) c.1
            c.2.1 c.2.2) :=
        lookupA_updateQuar_of_cand _ _ _ _ _ hnc hcmem
      rw [hc1] at hu2
      have hm : m = mkEntry cfg ctx.now (lookupA (cycleFn cfg ctx cands q0).1 d) d
          c.2.1 c.2.2 := Option.some.inj (hlk.symm.trans hu2)
      cases hq1 : lookupA (cycleFn cfg ctx cands q0).1 d with
      | none =>
        rw [hq1] at hm
        rw [hm]
        exact Bool.or_eq_false_iff.mpr
          ⟨promoteCond_fresh_false cfg ctx.now cfg.quarantine_hours d c.2.1 c.2.2 _ _ hqh,
            staleB_fresh_false cfg ctx.now cfg.lookback_hours none d c.2.1 c.2.2 hlb⟩
      | some m0 =>
        rw [hq1] at hm
        have hk1 := key1 d m0 hq1
        have hu1 : lookupA (updateQuar cfg ctx.now cands q0) c.1 =
            some (mkEntry cfg ctx.now (lookupA q0 c.1) c.1 c.2.1 c.2.2) :=
          lookupA_updateQuar_of_cand _ _ _ _ _ hnc hcmem
        rw [hc1] at hu1
        have hm0 : m0 = mkEntry cfg ctx.now (lookupA q0 d) d c.2.1 c.2.2 :=
          Option.some.inj (hk1.1.symm.trans hu1)
        have hmm : m = m0 := by
          rw [hm, hm0, mkEntry_on_some]
        rw [hmm]
        exact hk1.2
    · rw [lookupA_updateQuar_of_not_cand _ _ _ _ _ hd] at hlk
      exact (key1 d m hlk).2
  refine ⟨?_, ?_, ?_⟩
  · intro d m h
    have hu2 := key2 d m h
    have hmem := mem_of_lookupA _ _ _ hu2
    have hcondf := keyAll (d, m) hmem
    show lookupA (promoStep cfg ctx (cands.map fun c => c.1)
      (updateQuar cfg ctx.now cands (cycleFn cfg ctx cands q0).1)).1 d = some m
    rw [lookupA_promoStep_some _ _ _ _ _ _ hnu2 hu2, if_neg (Bool.eq_false_iff.mp hcondf)]
  · show (promoStep cfg ctx (cands.map fun c => c.1)
      (updateQuar cfg ctx.now cands (cycleFn cfg ctx cands q0).1)).2.1 = []
    exact (promoStep_snd_of_no_promote _ _ _ _
      (fun p hp => (Bool.or_eq_false_iff.mp (keyAll p hp)).1)).1
  · show (promoStep cfg ctx (cands.map fun c => c.1)
      (updateQuar cfg ctx.now cands (cycleFn cfg ctx cands q0).1)).2.2 = []
    exact (promoStep_snd_of_no_promote _ _ _ _
      (fun p hp => (Bool.or_eq_false_iff.mp (keyAll p hp)).1)).2

theorem cycle_idempotent_on_unchanged_input_witness :
    (cycleFn defaultCfg ctxW [("x.top", ⟨50, 5, 8⟩, ["tld"])]
      (cycleFn defaultCfg ctxW [("x.top", ⟨50, 5, 8⟩, ["tld"])] []).1).2.1 = [] :=
  (cycle_idempotent_on_unchanged_input defaultCfg ctxW [("x.top", ⟨50, 5, 8⟩, ["tld"])] []
    (by decide) (by decide) (by decide) (by decide)).2.1

end Autoblocker
